import Mathlib

/-!
Verification of the `RingBuffer<T>` class from `src/ring-buffer.ts`.

Shallow embedding notes:
* The mutable object state `{ buffer: T[]; size: number; pos: number }` becomes
  the structure `RingBuffer T`; every method is a function on that structure
  (mutators return the updated structure, accessors are pure).
* JavaScript numbers that can become `NaN` are modelled as `Option`
  (`none` = NaN).  The only field that can become `NaN` is `pos`, via
  `(this.pos + 1) % this.size` when `size == 0` (`1 % 0` is `NaN` in JS), so
  `pos : Option Nat`.  `NaN` propagates through arithmetic, every comparison
  with `NaN` is false, and `Array.prototype.slice` converts `NaN` arguments to
  `0` (`ToIntegerOrInfinity`); the helpers below reproduce exactly that.
* `Array.prototype.slice` / `splice` clamping follows ECMA-262.
* Methods that `throw` return the error message in an `Except`/`Option`
  component; the source throws before any field assignment, so the state
  component of a throwing call is the unchanged input state.
-/

/-- JS number that may be NaN (`none`). -/
abbrev JsNum := Option Int

/-- JS addition: NaN propagates. -/
def jadd : JsNum → JsNum → JsNum
  | some a, some b => some (a + b)
  | _, _ => none

/-- JS subtraction: NaN propagates. -/
def jsub : JsNum → JsNum → JsNum
  | some a, some b => some (a - b)
  | _, _ => none

/-- JS `Math.max`: NaN propagates. -/
def jmax : JsNum → JsNum → JsNum
  | some a, some b => some (max a b)
  | _, _ => none

/-- JS comparison `x <= 0`: false when `x` is NaN. -/
def jleZ : JsNum → Bool
  | some a => a ≤ 0
  | none => false

/-- `ToIntegerOrInfinity` as used by `Array.prototype.slice`: NaN becomes 0. -/
def toIZ : JsNum → Int
  | some a => a
  | none => 0

/-- The cursor field read as a JS number (`Nat` embedded in `Int`,
`none` = NaN). -/
def jnum (o : Option Nat) : JsNum := o.map (Nat.cast : Nat → Int)

/-- JS `%` (remainder, sign of the dividend) on a possibly-NaN dividend;
a zero divisor yields NaN.  `Int.tmod` truncates toward zero exactly like
JS `%`. -/
def jmod : JsNum → Int → JsNum
  | some a, b => if b = 0 then none else some (Int.tmod a b)
  | none, _ => none

/-- `Array.prototype.slice(s, e)` for integer arguments (ECMA-262 clamping;
negative indices count from the end). -/
def jsSlice {T : Type} (l : List T) (s e : Int) : List T :=
  (l.take (if e < 0 then max ((l.length : Int) + e) 0 else min e (l.length : Int)).toNat).drop
    (if s < 0 then max ((l.length : Int) + s) 0 else min s (l.length : Int)).toNat

/-- `Array.prototype.splice(start, deleteCount)` with no insertions, for
`start` already a non-negative integer: returns (removed, remaining).
`deleteCount` is clamped to `[0, length - start]`. -/
def jsSplice {T : Type} (l : List T) (start : Nat) (deleteCount : Int) : List T × List T :=
  let s := min start l.length
  let dc := (min (max deleteCount 0) (((l.length - s : Nat) : Int))).toNat
  ((l.drop s).take dc, l.take s ++ l.drop (s + dc))

/-- `arr[i] = x` for `i` a valid JS array index.  For `i < length` it
overwrites, for `i = length` it appends.  (For `i > length` JS would create a
sparse array with holes, which `List` cannot represent; that case is
unreachable because `pos ≤ buffer.length` in every reachable state.) -/
def jsWrite {T : Type} (l : List T) (i : Nat) (x : T) : List T :=
  if i < l.length then l.set i x else l ++ [x]

/-- The last `n` elements of a list (all of it when `n ≥ length`). -/
def lastK {T : Type} (n : Nat) (l : List T) : List T := l.drop (l.length - n)

/-- The state of a `RingBuffer<T>` instance:
`protected buffer: T[] = []; protected size: number; protected pos = 0;`.
`pos = none` models a `NaN` cursor. -/
structure RingBuffer (T : Type) where
  buffer : List T
  size : Nat
  pos : Option Nat
deriving DecidableEq

namespace RingBuffer

variable {T : Type}

/-- `constructor(size)`: throws a RangeError on negative size, otherwise
starts with an empty buffer and cursor 0. -/
def new (T : Type) (size : Int) : Except String (RingBuffer T) :=
  if size < 0 then Except.error "The size does not allow negative values."
  else Except.ok { buffer := [], size := size.toNat, pos := some 0 }

/-- `getSize()`: the maximum size (capacity). -/
def getSize (rb : RingBuffer T) : Nat := rb.size

/-- `getPos()`: the next index position (cursor). -/
def getPos (rb : RingBuffer T) : Option Nat := rb.pos

/-- `getBufferLength()`: the underlying array length (stored length). -/
def getBufferLength (rb : RingBuffer T) : Nat := rb.buffer.length

/-- The body of the `forEach` inside `add`: write at `pos`, then
`pos = (pos + 1) % size`.  With `size = 0` the modulo is `1 % 0 = NaN`;
with `pos` already NaN, `buffer[NaN] = item` sets a non-index property
(indexed elements and `length` unchanged) and `pos` stays NaN. -/
def addOne (rb : RingBuffer T) (item : T) : RingBuffer T :=
  match rb.pos with
  | some p =>
      { rb with buffer := jsWrite rb.buffer p item,
                pos := if rb.size = 0 then none else some ((p + 1) % rb.size) }
  | none => rb

/-- `add(...items)`: pushes the items in order. -/
def add (rb : RingBuffer T) (items : List T) : RingBuffer T :=
  items.foldl addOne rb

/-- `get(index)`: negative-index remap, bounds check (note: the source checks
`index > this.buffer.length`, not `>=`), then direct or cursor-relative
physical read.  Out-of-bounds array reads are `undefined` (`none`). -/
def get (rb : RingBuffer T) (index : Int) : Option T :=
  let index := if index < 0 then index + (rb.buffer.length : Int) else index
  if index < 0 ∨ (rb.buffer.length : Int) < index then none
  else if rb.buffer.length < rb.size then rb.buffer.get? index.toNat
  else
    match jmod (jadd (jnum rb.pos) (some index)) (rb.size : Int) with
    | some j => if j < 0 then none else rb.buffer.get? j.toNat
    | none => none

/-- `getFirst()`: same as `get(0)`. -/
def getFirst (rb : RingBuffer T) : Option T := rb.get 0

/-- `getLast()`: same as `get(-1)`. -/
def getLast (rb : RingBuffer T) : Option T := rb.get (-1)

/-- `toArray()`: `buffer.slice(pos).concat(buffer.slice(0, pos))`.
One-argument `slice` has end = length; slice converts a NaN argument to 0. -/
def toArray (rb : RingBuffer T) : List T :=
  jsSlice rb.buffer (toIZ (jnum rb.pos)) (rb.buffer.length : Int) ++
    jsSlice rb.buffer 0 (toIZ (jnum rb.pos))

/-- `firstN(n)`: `buffer.slice(pos, pos + n)` plus the wrapped part
`buffer.slice(0, (pos + n) - size)` when that quantity is positive. -/
def firstN (rb : RingBuffer T) (n : Int) : List T :=
  let p : JsNum := jnum rb.pos
  let firstPart := jsSlice rb.buffer (toIZ p) (toIZ (jadd p (some n)))
  let remaining := jsub (jadd p (some n)) (some (rb.size : Int))
  if jleZ remaining then firstPart
  else firstPart ++ jsSlice rb.buffer 0 (toIZ remaining)

/-- `lastN(n)`: `buffer.slice(max(0, pos - n), pos)` plus, when `n - pos` is
positive, the leading part `buffer.slice(size - (n - pos), size)`. -/
def lastN (rb : RingBuffer T) (n : Int) : List T :=
  let p : JsNum := jnum rb.pos
  let firstPart := jsSlice rb.buffer (toIZ (jmax (some 0) (jsub p (some n)))) (toIZ p)
  let remaining := jsub (some n) p
  if jleZ remaining then firstPart
  else jsSlice rb.buffer (toIZ (jsub (some (rb.size : Int)) remaining)) (rb.size : Int) ++ firstPart

/-- The part of `fromArray` after the optional resize: on `size == 0` return
early (state unchanged), otherwise `buffer = data.slice(-size)` and
`pos = buffer.length % size`.  (The `Array.isArray` TypeError branch is
unrepresentable here: `data : List T` is always an array.) -/
def fromArrayData (rb : RingBuffer T) (data : List T) : RingBuffer T :=
  if rb.size = 0 then rb
  else
    { rb with buffer := jsSlice data (-(rb.size : Int)) (data.length : Int),
              pos := some ((jsSlice data (-(rb.size : Int)) (data.length : Int)).length % rb.size) }

/-- `clear()`: empties the buffer and resets the cursor; size unchanged. -/
def clear (rb : RingBuffer T) : RingBuffer T :=
  { rb with buffer := [], pos := some 0 }

/-- The body of `resize` after the negative-size check (`newSize ≥ 0`):
`0` clears, a different size reloads the last `newSize` elements of
`toArray()` through `fromArray` and recomputes the cursor; `size` is
assigned last in every branch. -/
def resizeNN (rb : RingBuffer T) (newSize : Nat) : RingBuffer T :=
  if newSize = 0 then { rb.clear with size := 0 }
  else if newSize ≠ rb.size then
    let currentBuffer := rb.toArray
    let rb1 := rb.fromArrayData (jsSlice currentBuffer (-(newSize : Int)) (currentBuffer.length : Int))
    { rb1 with pos := some (rb1.buffer.length % newSize), size := newSize }
  else { rb with size := newSize }

/-- `resize(newSize)`: throws a RangeError on a negative size (before any
field assignment, so the state is returned unchanged together with the
message), otherwise runs the resize body. -/
def resize (rb : RingBuffer T) (newSize : Int) : RingBuffer T × Option String :=
  if newSize < 0 then (rb, some "The size does not allow negative values.")
  else (rb.resizeNN newSize.toNat, none)

/-- `fromArray(data, resize)`: optionally `this.resize(data.length)` first
(never throws: a length is non-negative), then the import body. -/
def fromArray (rb : RingBuffer T) (data : List T) (rz : Bool) : RingBuffer T :=
  let rb := if rz then (rb.resize (data.length : Int)).1 else rb
  rb.fromArrayData data

/-- `remove(index, count)`: negative-index remap and the same `> length`
bounds check as `get`; in range, splice `count` items out of `toArray()` and
re-import the rest with `fromArray` (no resize).  Returns (removed, state). -/
def remove (rb : RingBuffer T) (index : Int) (count : Int) : List T × RingBuffer T :=
  let index := if index < 0 then index + (rb.buffer.length : Int) else index
  if index < 0 ∨ (rb.buffer.length : Int) < index then ([], rb)
  else
    let arr := rb.toArray
    let sp := jsSplice arr index.toNat count
    (sp.1, rb.fromArray sp.2 false)

/-- `removeFirst()`: `remove(0)[0]` (reading `[0]` of an empty result is
`undefined`). -/
def removeFirst (rb : RingBuffer T) : Option T × RingBuffer T :=
  let r := rb.remove 0 1
  (r.1.head?, r.2)

/-- `removeLast()`: `remove(-1)[0]`. -/
def removeLast (rb : RingBuffer T) : Option T × RingBuffer T :=
  let r := rb.remove (-1) 1
  (r.1.head?, r.2)

/-- `isFull()`: `buffer.length === size`. -/
def isFull (rb : RingBuffer T) : Bool := rb.buffer.length == rb.size

/-- `isEmpty()`: `buffer.length === 0`. -/
def isEmpty (rb : RingBuffer T) : Bool := rb.buffer.length == 0

/-- Well-formed state: the cursor is a genuine number, within bounds, equal to
the stored length while the buffer is not yet full (the invariants of a buffer
that JS number pathologies have not corrupted). -/
def WF (rb : RingBuffer T) : Prop :=
  ∃ p, rb.pos = some p ∧ p ≤ rb.buffer.length ∧ rb.buffer.length ≤ rb.size ∧
    (rb.buffer.length < rb.size → p = rb.buffer.length) ∧ (0 < rb.size → p < rb.size)

/-- The corrupted state produced by `add` on a zero-capacity buffer: one item
stored, cursor NaN. -/
def NaNState (rb : RingBuffer T) : Prop :=
  rb.size = 0 ∧ rb.pos = none ∧ ∃ e, rb.buffer = [e]

/-- Every reachable state is either well-formed or the zero-capacity
corrupted state. -/
def Inv (rb : RingBuffer T) : Prop := WF rb ∨ NaNState rb

/-- Reachability of a buffer state through the public API, starting from the
constructor (any non-negative capacity). -/
inductive Reachable : RingBuffer T → Prop where
  | init (c : Nat) : Reachable ⟨[], c, some 0⟩
  | step_add (rb : RingBuffer T) (x : T) : Reachable rb → Reachable (rb.addOne x)
  | step_remove (rb : RingBuffer T) (i c : Int) : Reachable rb → Reachable (rb.remove i c).2
  | step_fromArray (rb : RingBuffer T) (data : List T) (rz : Bool) :
      Reachable rb → Reachable (rb.fromArray data rz)
  | step_clear (rb : RingBuffer T) : Reachable rb → Reachable rb.clear
  | step_resize (rb : RingBuffer T) (n : Int) : Reachable rb → Reachable (rb.resize n).1

/-- One call to a read accessor of the public API, with its argument. -/
inductive AccessorCall (T : Type) where
  | getA (index : Int)
  | getFirstA
  | getLastA
  | toArrayA
  | firstNA (n : Int)
  | lastNA (n : Int)
  | getSizeA
  | getPosA
  | getBufferLengthA
  | isFullA
  | isEmptyA

/-- The value returned by a read accessor. -/
inductive AccessorResult (T : Type) where
  | optVal (v : Option T)
  | arrVal (l : List T)
  | natVal (n : Nat)
  | posVal (p : Option Nat)
  | boolVal (b : Bool)

/-- State-passing semantics of one accessor call: the returned value together
with the instance state after the call.  None of these methods contains an
assignment to `this.buffer`, `this.size` or `this.pos` in the source (local
variables such as the remapped `index` in `get` are not fields), so the
state after each call is the input state. -/
def runAccessor (rb : RingBuffer T) : AccessorCall T → AccessorResult T × RingBuffer T
  | .getA i => (.optVal (rb.get i), rb)
  | .getFirstA => (.optVal rb.getFirst, rb)
  | .getLastA => (.optVal rb.getLast, rb)
  | .toArrayA => (.arrVal rb.toArray, rb)
  | .firstNA n => (.arrVal (rb.firstN n), rb)
  | .lastNA n => (.arrVal (rb.lastN n), rb)
  | .getSizeA => (.natVal rb.getSize, rb)
  | .getPosA => (.posVal rb.getPos, rb)
  | .getBufferLengthA => (.natVal rb.getBufferLength, rb)
  | .isFullA => (.boolVal rb.isFull, rb)
  | .isEmptyA => (.boolVal rb.isEmpty, rb)

end RingBuffer

/-! ### Lemmas about the JS helpers -/

theorem take_min_of_le {T : Type} (l : List T) (b L : Nat) (h : l.length ≤ L) :
    l.take (min b L) = l.take b := by
  rcases le_total b L with h1 | h1
  · rw [Nat.min_eq_left h1]
  · rw [Nat.min_eq_right h1, List.take_of_length_le h, List.take_of_length_le (h.trans h1)]

theorem drop_min_of_le {T : Type} (l : List T) (a L : Nat) (h : l.length ≤ L) :
    l.drop (min a L) = l.drop a := by
  rcases le_total a L with h1 | h1
  · rw [Nat.min_eq_left h1]
  · rw [Nat.min_eq_right h1, List.drop_eq_nil_of_le h, List.drop_eq_nil_of_le (h.trans h1)]

theorem jsSlice_nat {T : Type} (l : List T) (a b : Nat) :
    jsSlice l (a : Int) (b : Int) = (l.take b).drop a := by
  unfold jsSlice
  have ha : ¬ ((a : Int) < 0) := by omega
  have hb : ¬ ((b : Int) < 0) := by omega
  rw [if_neg ha, if_neg hb]
  have h1 : (min (b : Int) (l.length : Int)).toNat = min b l.length := by omega
  have h2 : (min (a : Int) (l.length : Int)).toNat = min a l.length := by omega
  rw [h1, h2, take_min_of_le l b l.length le_rfl,
    drop_min_of_le _ a l.length (by rw [List.length_take]; omega)]

theorem jsSlice_zero {T : Type} (l : List T) (b : Nat) :
    jsSlice l 0 (b : Int) = l.take b := by
  have := jsSlice_nat l 0 b
  simpa using this

theorem jsSlice_all {T : Type} (l : List T) :
    jsSlice l 0 (l.length : Int) = l := by
  rw [jsSlice_zero, List.take_length]

theorem jsSlice_neg {T : Type} (l : List T) (k : Nat) (hk : 0 < k) :
    jsSlice l (-(k : Int)) (l.length : Int) = l.drop (l.length - k) := by
  unfold jsSlice
  have hs : (-(k : Int)) < 0 := by omega
  have he : ¬ ((l.length : Int) < 0) := by omega
  rw [if_pos hs, if_neg he]
  have h1 : (min (l.length : Int) (l.length : Int)).toNat = l.length := by omega
  have h2 : (max ((l.length : Int) + -(k : Int)) 0).toNat = l.length - k := by omega
  rw [h1, h2, List.take_length]

theorem length_jsSlice_neg {T : Type} (l : List T) (k : Nat) (hk : 0 < k) :
    (jsSlice l (-(k : Int)) (l.length : Int)).length = min k l.length := by
  rw [jsSlice_neg l k hk, List.length_drop]
  omega

/-! ### Shape of `toArray` -/

namespace RingBuffer

variable {T : Type}

theorem toArray_some (rb : RingBuffer T) (p : Nat) (hp : rb.pos = some p) :
    rb.toArray = rb.buffer.drop p ++ rb.buffer.take p := by
  unfold toArray
  rw [hp]
  show jsSlice rb.buffer ((p : Int)) _ ++ jsSlice rb.buffer 0 ((p : Int)) = _
  rw [show ((rb.buffer.length : Nat) : Int) = (rb.buffer.length : Int) from rfl,
    jsSlice_nat rb.buffer p rb.buffer.length, List.take_length, jsSlice_zero]

theorem toArray_none (rb : RingBuffer T) (hp : rb.pos = none) :
    rb.toArray = rb.buffer := by
  unfold toArray
  rw [hp]
  show jsSlice rb.buffer 0 _ ++ jsSlice rb.buffer 0 0 = _
  rw [jsSlice_all]
  have h0 : jsSlice rb.buffer 0 0 = [] := by
    simp [jsSlice]
  rw [h0, List.append_nil]

theorem length_toArray (rb : RingBuffer T) :
    rb.toArray.length = rb.buffer.length := by
  cases hp : rb.pos with
  | none => rw [toArray_none rb hp]
  | some p =>
      rw [toArray_some rb p hp]
      simp only [List.length_append, List.length_drop, List.length_take]
      omega

/-! ### Invariants -/

end RingBuffer

theorem lastK_of_le {T : Type} (n : Nat) (l : List T) (h : l.length ≤ n) :
    lastK n l = l := by
  unfold lastK
  rw [show l.length - n = 0 by omega, List.drop_zero]

theorem lastK_append_of_le {T : Type} (n : Nat) (a b : List T) (h : n ≤ b.length) :
    lastK n (a ++ b) = lastK n b := by
  unfold lastK
  rw [List.length_append, show a.length + b.length - n = a.length + (b.length - n) by omega,
    List.drop_append]

/-! ### The `add` step -/

namespace RingBuffer

variable {T : Type}

theorem addOne_some (b : List T) (s p : Nat) (x : T) :
    addOne ⟨b, s, some p⟩ x =
      ⟨jsWrite b p x, s, if s = 0 then none else some ((p + 1) % s)⟩ := rfl

theorem addOne_none (b : List T) (s : Nat) (x : T) :
    addOne ⟨b, s, none⟩ x = ⟨b, s, none⟩ := rfl

theorem size_addOne (rb : RingBuffer T) (x : T) : (rb.addOne x).size = rb.size := by
  obtain ⟨b, s, p⟩ := rb
  cases p <;> rfl

theorem size_add (rb : RingBuffer T) (es : List T) : (rb.add es).size = rb.size := by
  induction es generalizing rb with
  | nil => rfl
  | cons x es ih =>
      show ((rb.addOne x).add es).size = rb.size
      rw [ih, size_addOne]

theorem jsWrite_append (l : List T) (x : T) : jsWrite l l.length x = l ++ [x] := by
  unfold jsWrite
  rw [if_neg (by omega)]

theorem jsWrite_set (l : List T) (i : Nat) (x : T) (h : i < l.length) :
    jsWrite l i x = l.set i x := by
  unfold jsWrite
  rw [if_pos h]

theorem toArray_addOne_not_full (b : List T) (s : Nat) (x : T)
    (hlt : b.length < s) :
    (addOne ⟨b, s, some b.length⟩ x).toArray =
      (⟨b, s, some b.length⟩ : RingBuffer T).toArray ++ [x] := by
  have hs : s ≠ 0 := by omega
  rw [addOne_some, jsWrite_append, if_neg hs]
  rw [toArray_some _ ((b.length + 1) % s) rfl, toArray_some _ b.length rfl]
  simp only
  rw [List.drop_length, List.take_length, List.nil_append]
  rcases Nat.lt_or_ge (b.length + 1) s with hlt1 | hge1
  · rw [Nat.mod_eq_of_lt hlt1]
    have h1 : (b ++ [x]).length = b.length + 1 := by simp
    rw [← h1, List.drop_length, List.take_length, List.nil_append]
  · have heq : b.length + 1 = s := by omega
    rw [heq, Nat.mod_self, List.drop_zero, List.take_zero, List.append_nil]

theorem toArray_addOne_full (b : List T) (s p : Nat) (x : T)
    (hlen : b.length = s) (hps : p < s) :
    (addOne ⟨b, s, some p⟩ x).toArray =
      ((⟨b, s, some p⟩ : RingBuffer T).toArray).drop 1 ++ [x] := by
  have hs : s ≠ 0 := by omega
  have hpb : p < b.length := by omega
  rw [addOne_some, jsWrite_set _ _ _ hpb, if_neg hs]
  rw [toArray_some _ ((p + 1) % s) rfl, toArray_some _ p rfl]
  simp only
  have hset : b.set p x = b.take p ++ x :: b.drop (p + 1) :=
    List.set_eq_take_cons_drop x hpb
  have hdrop1 : ((b.drop p ++ b.take p).drop 1) = b.drop (p + 1) ++ b.take p := by
    rw [List.drop_append_of_le_length (by rw [List.length_drop]; omega),
      List.drop_drop]
  rw [hdrop1]
  have htake_len : (b.take p).length = p := by
    rw [List.length_take]; omega
  rcases Nat.lt_or_ge (p + 1) s with hlt1 | hge1
  · rw [Nat.mod_eq_of_lt hlt1]
    have hd : (b.set p x).drop (p + 1) = b.drop (p + 1) := by
      rw [hset, ← List.singleton_append, ← List.append_assoc]
      exact List.drop_left' (by simp [htake_len])
    have ht : (b.set p x).take (p + 1) = b.take p ++ [x] := by
      rw [hset, ← List.singleton_append, ← List.append_assoc]
      exact List.take_left' (by simp [htake_len])
    rw [hd, ht, List.append_assoc]
  · have hp1 : p + 1 = s := by omega
    rw [hp1, Nat.mod_self, List.drop_zero, List.take_zero, List.append_nil]
    have hdb : b.drop (p + 1) = [] := List.drop_eq_nil_of_le (by omega)
    rw [hset, hdb]
    simp
    omega

theorem WF_addOne_mk (b : List T) (s p : Nat) (x : T)
    (hple : p ≤ b.length) (hlenle : b.length ≤ s)
    (hnf : b.length < s → p = b.length) (hps2 : 0 < s → p < s) (hs : 0 < s) :
    (addOne ⟨b, s, some p⟩ x).WF := by
  rw [addOne_some, if_neg (by omega)]
  rcases Nat.lt_or_ge b.length s with hlt | hge
  · have hpl : p = b.length := hnf hlt
    subst hpl
    rw [jsWrite_append]
    refine ⟨(b.length + 1) % s, rfl, ?_, ?_, ?_, ?_⟩
    · simp only [List.length_append, List.length_singleton]
      exact le_trans (Nat.mod_le _ _) le_rfl
    · simp only [List.length_append, List.length_singleton]
      omega
    · simp only [List.length_append, List.length_singleton]
      intro hlt1
      exact Nat.mod_eq_of_lt (by omega)
    · intro _
      exact Nat.mod_lt _ hs
  · have hfull : b.length = s := by omega
    have hpb : p < b.length := by
      have := hps2 hs
      omega
    rw [jsWrite_set _ _ _ hpb]
    refine ⟨(p + 1) % s, rfl, ?_, ?_, ?_, ?_⟩
    · show (p + 1) % s ≤ (b.set p x).length
      rw [List.length_set]
      have := Nat.mod_lt (p + 1) hs
      omega
    · show (b.set p x).length ≤ s
      rw [List.length_set]
      omega
    · show (b.set p x).length < s → (p + 1) % s = (b.set p x).length
      rw [List.length_set]
      intro h
      omega
    · intro _
      exact Nat.mod_lt _ hs

theorem WF_addOne (rb : RingBuffer T) (x : T) (h : rb.WF) (hs : 0 < rb.size) :
    (rb.addOne x).WF := by
  obtain ⟨b, s, q⟩ := rb
  obtain ⟨p, hp, h1, h2, h3, h4⟩ := h
  have hq : q = some p := hp
  subst hq
  exact WF_addOne_mk b s p x h1 h2 h3 h4 hs

theorem WF_add (rb : RingBuffer T) (es : List T) (h : rb.WF) (hs : 0 < rb.size) :
    (rb.add es).WF := by
  induction es generalizing rb with
  | nil => exact h
  | cons x es ih =>
      show ((rb.addOne x).add es).WF
      exact ih _ (WF_addOne rb x h hs) (by rw [size_addOne]; exact hs)

theorem length_addOne_full (rb : RingBuffer T) (x : T) (h : rb.WF)
    (hs : 0 < rb.size) (hfull : rb.buffer.length = rb.size) :
    (rb.addOne x).buffer.length = rb.size := by
  obtain ⟨b, s, q⟩ := rb
  obtain ⟨p, hp, h1, h2, h3, h4⟩ := h
  have hq : q = some p := hp
  subst hq
  have hfull' : b.length = s := hfull
  have hs' : 0 < s := hs
  have hpb : p < b.length := by
    have h5 : p < s := h4 hs'
    omega
  show (addOne ⟨b, s, some p⟩ x).buffer.length = s
  rw [addOne_some, if_neg (by omega)]
  show (jsWrite b p x).length = s
  rw [jsWrite_set _ _ _ hpb, List.length_set]
  exact hfull'

theorem toArray_add (es : List T) (rb : RingBuffer T) (h : rb.WF) (hs : 0 < rb.size) :
    (rb.add es).toArray = lastK rb.size (rb.toArray ++ es) := by
  induction es generalizing rb with
  | nil =>
      show rb.toArray = lastK rb.size (rb.toArray ++ [])
      rw [List.append_nil, lastK_of_le]
      rw [length_toArray]
      obtain ⟨p, _, _, h2, _, _⟩ := h
      exact h2
  | cons x es ih =>
      show ((rb.addOne x).add es).toArray = _
      rw [ih _ (WF_addOne rb x h hs) (by rw [size_addOne]; exact hs), size_addOne]
      obtain ⟨b, s, q⟩ := rb
      obtain ⟨p, hp, h1, h2, h3, h4⟩ := h
      have hq : q = some p := hp
      subst hq
      have h2' : b.length ≤ s := h2
      have h3' : b.length < s → p = b.length := h3
      have h4' : 0 < s → p < s := h4
      have hs' : 0 < s := hs
      rcases Nat.lt_or_ge b.length s with hlt | hge
      · have hpl : p = b.length := h3' hlt
        subst hpl
        rw [toArray_addOne_not_full b s x hlt, List.append_assoc]
        rfl
      · have hfull : b.length = s := by omega
        have hps : p < s := h4' hs'
        rw [toArray_addOne_full b s p x hfull hps]
        have hL : ((⟨b, s, some p⟩ : RingBuffer T).toArray).length = s := by
          rw [length_toArray]
          exact hfull
        set L := (⟨b, s, some p⟩ : RingBuffer T).toArray with hLdef
        have hsplit : L = L.take 1 ++ L.drop 1 := (List.take_append_drop 1 L).symm
        calc lastK s ((L.drop 1 ++ [x]) ++ es)
            = lastK s (L.drop 1 ++ (x :: es)) := by
              rw [List.append_assoc, List.singleton_append]
          _ = lastK s (L.take 1 ++ (L.drop 1 ++ (x :: es))) :=
              (lastK_append_of_le s (L.take 1) (L.drop 1 ++ (x :: es)) (by
                simp only [List.length_append, List.length_drop, List.length_cons, hL]
                omega)).symm
          _ = lastK s (L ++ (x :: es)) := by
              rw [← List.append_assoc, ← hsplit]

/-! ### `fromArray`, `clear`, `resize`, `remove`: shapes and invariant preservation -/

theorem fromArrayData_of_size_zero (rb : RingBuffer T) (data : List T) (h : rb.size = 0) :
    rb.fromArrayData data = rb := by
  unfold fromArrayData
  rw [if_pos h]

theorem fromArrayData_of_size_pos (rb : RingBuffer T) (data : List T) (h : 0 < rb.size) :
    rb.fromArrayData data =
      { rb with buffer := data.drop (data.length - rb.size),
                pos := some ((data.drop (data.length - rb.size)).length % rb.size) } := by
  unfold fromArrayData
  rw [if_neg (by omega), jsSlice_neg data rb.size h]

theorem size_fromArrayData (rb : RingBuffer T) (data : List T) :
    (rb.fromArrayData data).size = rb.size := by
  unfold fromArrayData
  split <;> rfl

theorem WF_mk_mod (b : List T) (m : Nat) (hm : 0 < m) (hlen : b.length ≤ m) :
    WF (⟨b, m, some (b.length % m)⟩ : RingBuffer T) := by
  refine ⟨b.length % m, rfl, ?_, ?_, ?_, ?_⟩
  · show b.length % m ≤ b.length
    exact Nat.mod_le _ _
  · exact hlen
  · show b.length < m → b.length % m = b.length
    intro h
    exact Nat.mod_eq_of_lt h
  · intro _
    exact Nat.mod_lt _ hm

theorem WF_fromArrayData (rb : RingBuffer T) (data : List T) (h : 0 < rb.size) :
    (rb.fromArrayData data).WF := by
  rw [fromArrayData_of_size_pos rb data h]
  have hlen : (data.drop (data.length - rb.size)).length ≤ rb.size := by
    rw [List.length_drop]
    omega
  exact WF_mk_mod (data.drop (data.length - rb.size)) rb.size h hlen

theorem toArray_fromArrayData (rb : RingBuffer T) (data : List T) (h : 0 < rb.size)
    (hlen : data.length ≤ rb.size) :
    (rb.fromArrayData data).toArray = data := by
  rw [fromArrayData_of_size_pos rb data h]
  have hdrop0 : data.length - rb.size = 0 := by omega
  rw [hdrop0, List.drop_zero]
  rw [toArray_some _ (data.length % rb.size) rfl]
  show data.drop (data.length % rb.size) ++ data.take (data.length % rb.size) = data
  rcases Nat.lt_or_ge data.length rb.size with hlt | hge
  · rw [Nat.mod_eq_of_lt hlt, List.drop_length, List.take_length, List.nil_append]
  · have heq : data.length = rb.size := by omega
    rw [← heq, Nat.mod_self, List.drop_zero, List.take_zero, List.append_nil]

theorem Inv_fromArrayData (rb : RingBuffer T) (data : List T) (h : rb.Inv) :
    (rb.fromArrayData data).Inv := by
  rcases Nat.eq_zero_or_pos rb.size with hs | hs
  · rw [fromArrayData_of_size_zero rb data hs]
    exact h
  · exact Or.inl (WF_fromArrayData rb data hs)

theorem WF_clear (rb : RingBuffer T) : (rb.clear).WF := by
  refine ⟨0, rfl, ?_, ?_, ?_, ?_⟩
  · show 0 ≤ ([] : List T).length
    simp
  · show ([] : List T).length ≤ rb.size
    simp
  · intro _
    rfl
  · intro h
    exact h

theorem resizeNN_of_ne (rb : RingBuffer T) (m : Nat) (hm : m ≠ 0) (hne : m ≠ rb.size) :
    rb.resizeNN m =
      { rb.fromArrayData (jsSlice rb.toArray (-(m : Int)) (rb.toArray.length : Int)) with
          pos := some ((rb.fromArrayData
            (jsSlice rb.toArray (-(m : Int)) (rb.toArray.length : Int))).buffer.length % m),
          size := m } := by
  unfold resizeNN
  rw [if_neg hm, if_pos hne]

theorem resizeNN_self (rb : RingBuffer T) (hm : rb.size ≠ 0) :
    rb.resizeNN rb.size = rb := by
  unfold resizeNN
  rw [if_neg hm, if_neg (by simp)]

theorem Inv_resizeNN (rb : RingBuffer T) (m : Nat) (h : rb.Inv) :
    (rb.resizeNN m).Inv := by
  rcases Nat.eq_zero_or_pos m with hm | hm
  · subst hm
    unfold resizeNN
    rw [if_pos rfl]
    left
    exact ⟨0, rfl, by simp [clear], by simp [clear], by intro h1; simp at h1, by intro h1; omega⟩
  · by_cases hne : m = rb.size
    · subst hne
      rw [resizeNN_self rb (by omega)]
      exact h
    · rw [resizeNN_of_ne rb m (by omega) hne]
      set rb1 := rb.fromArrayData (jsSlice rb.toArray (-(m : Int)) (rb.toArray.length : Int))
        with hrb1
      have hlen1 : rb1.buffer.length ≤ m := by
        rcases Nat.eq_zero_or_pos rb.size with hs | hs
        · rw [hrb1, fromArrayData_of_size_zero rb _ hs]
          rcases h with hwf | hnan
          · obtain ⟨p, hp, h1, h2, h3, h4⟩ := hwf
            omega
          · obtain ⟨hs0, hpn, e, hbe⟩ := hnan
            rw [hbe]
            simpa using hm
        · rw [hrb1, fromArrayData_of_size_pos rb _ hs]
          simp only [List.length_drop, length_jsSlice_neg rb.toArray m hm]
          omega
      exact Or.inl (WF_mk_mod rb1.buffer m hm hlen1)

theorem Inv_resize (rb : RingBuffer T) (n : Int) (h : rb.Inv) :
    ((rb.resize n).1).Inv := by
  unfold resize
  split
  · exact h
  · exact Inv_resizeNN rb n.toNat h

theorem Inv_fromArray (rb : RingBuffer T) (data : List T) (rz : Bool) (h : rb.Inv) :
    (rb.fromArray data rz).Inv := by
  unfold fromArray
  cases rz
  · exact Inv_fromArrayData rb data h
  · exact Inv_fromArrayData _ data (Inv_resize rb _ h)

theorem remove_eq (rb : RingBuffer T) (i c : Int) :
    rb.remove i c =
      (if (if i < 0 then i + (rb.buffer.length : Int) else i) < 0 ∨
          (rb.buffer.length : Int) < (if i < 0 then i + (rb.buffer.length : Int) else i)
       then ([], rb)
       else ((jsSplice rb.toArray (if i < 0 then i + (rb.buffer.length : Int) else i).toNat c).1,
             rb.fromArray
               (jsSplice rb.toArray (if i < 0 then i + (rb.buffer.length : Int) else i).toNat c).2
               false)) := rfl

theorem Inv_remove (rb : RingBuffer T) (i c : Int) (h : rb.Inv) :
    ((rb.remove i c).2).Inv := by
  rw [remove_eq]
  split <;> split <;>
    first
      | exact h
      | exact Inv_fromArray rb _ false h

theorem Inv_addOne (rb : RingBuffer T) (x : T) (h : rb.Inv) :
    (rb.addOne x).Inv := by
  rcases h with hwf | hnan
  · rcases Nat.eq_zero_or_pos rb.size with hs | hs
    · right
      obtain ⟨b, s, q⟩ := rb
      obtain ⟨p, hp, h1, h2, h3, h4⟩ := hwf
      have hq : q = some p := hp
      subst hq
      have hs' : s = 0 := hs
      subst hs'
      have h1' : p ≤ b.length := h1
      have h2' : b.length ≤ 0 := h2
      have hb : b = [] := List.length_eq_zero.mp (by omega)
      have hp0 : p = 0 := by omega
      subst hb
      subst hp0
      exact ⟨rfl, rfl, x, rfl⟩
    · exact Or.inl (WF_addOne rb x hwf hs)
  · right
    obtain ⟨b, s, q⟩ := rb
    obtain ⟨hs0, hpn, e, hbe⟩ := hnan
    have hq : q = none := hpn
    subst hq
    rw [addOne_none]
    exact ⟨hs0, rfl, e, hbe⟩

theorem reachable_inv (rb : RingBuffer T) (h : Reachable rb) : rb.Inv := by
  induction h with
  | init c =>
      left
      exact ⟨0, rfl, by simp, by simp, fun _ => rfl, fun hc => hc⟩
  | step_add rb x _ ih => exact Inv_addOne rb x ih
  | step_remove rb i c _ ih => exact Inv_remove rb i c ih
  | step_fromArray rb data rz _ ih => exact Inv_fromArray rb data rz ih
  | step_clear rb _ ih => exact Or.inl (WF_clear rb)
  | step_resize rb n _ ih => exact Inv_resize rb n ih

theorem toArray_mk_mod (b : List T) (m : Nat) (_hm : 0 < m) (hlen : b.length ≤ m) :
    (⟨b, m, some (b.length % m)⟩ : RingBuffer T).toArray = b := by
  rw [toArray_some _ (b.length % m) rfl]
  show b.drop (b.length % m) ++ b.take (b.length % m) = b
  rcases Nat.lt_or_ge b.length m with hlt | hge
  · rw [Nat.mod_eq_of_lt hlt, List.drop_length, List.take_length, List.nil_append]
  · have heq : b.length = m := by omega
    rw [← heq, Nat.mod_self, List.drop_zero, List.take_zero, List.append_nil]

theorem jsSplice_at_length (l : List T) (c : Int) : jsSplice l l.length c = ([], l) := by
  unfold jsSplice
  simp only [Nat.min_self, Nat.sub_self, Nat.cast_zero]
  have hdc : (min (max c 0) (0 : Int)).toNat = 0 := by omega
  rw [hdc]
  simp

theorem fromArray_false (rb : RingBuffer T) (data : List T) :
    rb.fromArray data false = rb.fromArrayData data := rfl

theorem resize_nonneg (rb : RingBuffer T) (n : Int) (hn : 0 ≤ n) :
    rb.resize n = (rb.resizeNN n.toNat, none) := by
  unfold resize
  rw [if_neg (by omega)]

theorem get_eq (rb : RingBuffer T) (i : Int) :
    rb.get i =
      (if (if i < 0 then i + (rb.buffer.length : Int) else i) < 0 ∨
          (rb.buffer.length : Int) < (if i < 0 then i + (rb.buffer.length : Int) else i) then none
       else if rb.buffer.length < rb.size then
         rb.buffer.get? (if i < 0 then i + (rb.buffer.length : Int) else i).toNat
       else
         match jmod (jadd (jnum rb.pos)
             (some (if i < 0 then i + (rb.buffer.length : Int) else i))) ((rb.size : Int)) with
         | some j => if j < 0 then none else rb.buffer.get? j.toNat
         | none => none) := rfl

theorem length_add_full (rb : RingBuffer T) (more : List T) (h : rb.WF) (hs : 0 < rb.size)
    (hfull : rb.buffer.length = rb.size) : (rb.add more).buffer.length = rb.size := by
  induction more generalizing rb with
  | nil => exact hfull
  | cons x more ih =>
      show ((rb.addOne x).add more).buffer.length = rb.size
      have h1 := WF_addOne rb x h hs
      have h2 : 0 < (rb.addOne x).size := by rw [size_addOne]; exact hs
      have h3 : (rb.addOne x).buffer.length = (rb.addOne x).size := by
        rw [size_addOne, length_addOne_full rb x h hs hfull]
      rw [ih (rb.addOne x) h1 h2 h3, size_addOne]

theorem resizeNN_toArray (rb : RingBuffer T) (h : rb.Inv) (m : Nat) (hm : 0 < m) :
    (rb.resizeNN m).size = m ∧ (rb.resizeNN m).toArray = lastK m rb.toArray := by
  by_cases hne : m = rb.size
  · constructor
    · subst hne
      rw [resizeNN_self rb (by omega)]
    · subst hne
      rw [resizeNN_self rb (by omega), lastK_of_le]
      rw [length_toArray]
      rcases h with hwf | hnan
      · obtain ⟨p, _, _, h2, _, _⟩ := hwf
        exact h2
      · exact absurd hnan.1 (by omega)
  · rw [resizeNN_of_ne rb m (by omega) hne]
    refine ⟨rfl, ?_⟩
    rcases Nat.eq_zero_or_pos rb.size with hs | hs
    · rw [fromArrayData_of_size_zero rb _ hs]
      rcases h with hwf | hnan
      · obtain ⟨p, hp, h1, h2, h3, h4⟩ := hwf
        have h2' : rb.buffer.length ≤ rb.size := h2
        have hb : rb.buffer = [] := List.length_eq_zero.mp (by omega)
        have hR : ({ rb with pos := some (rb.buffer.length % m), size := m }
            : RingBuffer T).toArray = [] := by
          rw [toArray_some _ (rb.buffer.length % m) rfl]
          show rb.buffer.drop _ ++ rb.buffer.take _ = []
          rw [hb]
          simp
        rw [hR]
        have hT : rb.toArray = [] := by
          rw [toArray_some rb p hp, hb]
          simp
        rw [hT]
        simp [lastK]
      · obtain ⟨hs0, hpn, e, hbe⟩ := hnan
        have hl1 : rb.buffer.length = 1 := by rw [hbe]; rfl
        have hcases : 1 % m = 0 ∨ 1 % m = 1 := by
          have := Nat.mod_le 1 m
          omega
        have hR : ({ rb with pos := some (rb.buffer.length % m), size := m }
            : RingBuffer T).toArray = [e] := by
          rw [toArray_some _ (rb.buffer.length % m) rfl]
          show rb.buffer.drop (rb.buffer.length % m) ++ rb.buffer.take (rb.buffer.length % m) = [e]
          rw [hl1, hbe]
          rcases hcases with h0 | h0 <;> rw [h0] <;> rfl
        rw [hR, toArray_none rb hpn, hbe]
        show [e] = lastK m [e]
        unfold lastK
        rw [show ([e] : List T).length - m = 0 by
          simp only [List.length_singleton]
          omega]
        rw [List.drop_zero]
    · have hwf : rb.WF := by
        rcases h with hwf | hnan
        · exact hwf
        · exact absurd hnan.1 (by omega)
      obtain ⟨p, hp, h1, h2, h3, h4⟩ := hwf
      have h2' : rb.buffer.length ≤ rb.size := h2
      have hLlen : rb.toArray.length = rb.buffer.length := length_toArray rb
      have harr2 : jsSlice rb.toArray (-(m : Int)) (rb.toArray.length : Int)
          = rb.toArray.drop (rb.toArray.length - m) := jsSlice_neg rb.toArray m hm
      set A := rb.toArray.drop (rb.toArray.length - m) with hA
      have hAlen : A.length ≤ rb.size := by
        rw [hA, List.length_drop]
        omega
      have hAlen2 : A.length ≤ m := by
        rw [hA, List.length_drop]
        omega
      rw [harr2, fromArrayData_of_size_pos rb A hs]
      have hz : A.length - rb.size = 0 := by omega
      rw [hz, List.drop_zero]
      show (⟨A, m, some (A.length % m)⟩ : RingBuffer T).toArray = lastK m rb.toArray
      rw [toArray_mk_mod A m hm hAlen2]
      rw [hA]
      rfl

theorem new_nonneg_eq (T : Type) (c : Nat) :
    RingBuffer.new T (c : Int) = Except.ok ⟨[], c, some 0⟩ := by
  unfold new
  rw [if_neg (by omega), Int.toNat_natCast]

theorem WF_mkRB (c : Nat) : WF (⟨[], c, some 0⟩ : RingBuffer T) :=
  ⟨0, rfl, Nat.le_refl 0, Nat.zero_le c, fun _ => rfl, fun h => h⟩

end RingBuffer

open RingBuffer

/-- C2: the claim says a zero-capacity buffer stays empty under every
operation and never hits a modulo by zero.  The code violates this: starting
from `new RingBuffer(0)` (state `⟨[], 0, some 0⟩`), `add(42)` executes
`buffer[0] = 42` (the buffer now holds one element, `isEmpty()` is false,
`getBufferLength()` is 1) and `pos = (0 + 1) % 0`, which in JS is `1 % 0 =
NaN` (modelled as `none`).  This theorem evaluates the code at that failing
input. -/
theorem c2_zero_capacity_add_eval :
    RingBuffer.new Nat 0 = Except.ok ⟨[], 0, some 0⟩ ∧
    add (⟨[], 0, some 0⟩ : RingBuffer Nat) [42] = ⟨[42], 0, none⟩ ∧
    isEmpty (add (⟨[], 0, some 0⟩ : RingBuffer Nat) [42]) = false ∧
    getBufferLength (add (⟨[], 0, some 0⟩ : RingBuffer Nat) [42]) = 1 ∧
    getPos (add (⟨[], 0, some 0⟩ : RingBuffer Nat) [42]) = none :=
  ⟨rfl, by decide, by decide, by decide, by decide⟩

/-- C3: the claim says `firstN(n) = toArray().slice(0, n)` and `lastN(n)` =
last `n` of `toArray()` on every reachable state, including partially filled
buffers and over-requests.  The code violates both: after `add(1); add(2)` on
a capacity-3 buffer (state `⟨[1,2], 3, some 2⟩`, reachable below),
`firstN(1)` returns `[]` while `toArray().slice(0,1) = [1]`, and `lastN(4)`
returns `[2,1,2]` while the last 4 elements of `toArray()` are `[1,2]`.
This theorem evaluates the code at those failing inputs. -/
theorem c3_firstN_lastN_eval :
    add (⟨[], 3, some 0⟩ : RingBuffer Nat) [1, 2] = ⟨[1, 2], 3, some 2⟩ ∧
    firstN (⟨[1, 2], 3, some 2⟩ : RingBuffer Nat) 1 = [] ∧
    (toArray (⟨[1, 2], 3, some 2⟩ : RingBuffer Nat)).take 1 = [1] ∧
    lastN (⟨[1, 2], 3, some 2⟩ : RingBuffer Nat) 4 = [2, 1, 2] ∧
    lastK 4 (toArray (⟨[1, 2], 3, some 2⟩ : RingBuffer Nat)) = [1, 2] ∧
    Reachable (⟨[1, 2], 3, some 2⟩ : RingBuffer Nat) :=
  ⟨by decide, by decide, by decide, by decide, by decide,
    Reachable.step_add _ 2 (Reachable.step_add _ 1 (Reachable.init 3))⟩

/-- C8: constructing with a negative capacity and resizing to a negative
capacity both throw the RangeError "The size does not allow negative values.";
the throw happens before any field assignment, so the state of a failed
`resize` is unchanged. -/
theorem c8_negative_size_errors {T : Type} (rb : RingBuffer T) (n : Int) (hn : n < 0) :
    RingBuffer.new T n = Except.error "The size does not allow negative values." ∧
    rb.resize n = (rb, some "The size does not allow negative values.") := by
  constructor
  · unfold new
    rw [if_pos hn]
  · unfold resize
    rw [if_pos hn]

/-- Witness for C8 at capacity -1. -/
theorem c8_negative_size_errors_witness :
    RingBuffer.new Nat (-1) = Except.error "The size does not allow negative values." ∧
    resize (⟨[], 2, some 0⟩ : RingBuffer Nat) (-1) =
      (⟨[], 2, some 0⟩, some "The size does not allow negative values.") :=
  c8_negative_size_errors (⟨[], 2, some 0⟩ : RingBuffer Nat) (-1) (by decide)

/-- C10: every read accessor (`get`, `getFirst`, `getLast`, `toArray`,
`firstN`, `lastN`, `getSize`, `getPos`, `getBufferLength`, `isFull`,
`isEmpty`) leaves the state (buffer contents, cursor, capacity) unchanged,
for every state and every argument: none of these methods assigns to a field
in the source, so their state-passing semantics returns the input state. -/
theorem c10_accessors_pure {T : Type} (rb : RingBuffer T) (a : AccessorCall T) :
    (runAccessor rb a).2 = rb := by
  cases a <;> rfl

/-- C5: for any sequence `S` with `length S ≤ capacity`, `fromArray(S)`
(without resize) followed by `toArray()` returns `S` unchanged, on every
buffer satisfying the data-model invariants. -/
theorem c5_fromArray_roundtrip {T : Type} (rb : RingBuffer T) (S : List T)
    (hwf : rb.WF) (hlen : S.length ≤ rb.size) :
    (rb.fromArray S false).toArray = S := by
  rw [fromArray_false]
  rcases Nat.eq_zero_or_pos rb.size with hs | hs
  · rw [fromArrayData_of_size_zero rb S hs]
    have hS : S = [] := List.length_eq_zero.mp (by omega)
    subst hS
    obtain ⟨p, hp, h1, h2, _, _⟩ := hwf
    have h2' : rb.buffer.length ≤ rb.size := h2
    have hb : rb.buffer = [] := List.length_eq_zero.mp (by omega)
    rw [toArray_some rb p hp, hb]
    simp
  · exact toArray_fromArrayData rb S hs hlen

/-- Witness for C5: importing `[5, 6]` into a capacity-3 buffer holding one
element round-trips. -/
theorem c5_fromArray_roundtrip_witness :
    toArray (fromArray (⟨[9], 3, some 1⟩ : RingBuffer Nat) [5, 6] false) = [5, 6] :=
  c5_fromArray_roundtrip (⟨[9], 3, some 1⟩ : RingBuffer Nat) [5, 6]
    ⟨1, rfl, by decide, by decide, fun _ => rfl, fun _ => by decide⟩ (by decide)

/-- C4: constructing with capacity `c ≥ 1` and adding `c + k` elements
`e0..e(c+k-1)` in order leaves exactly the most recent `c` elements,
`[e_k, ..., e_(c+k-1)]`, in `toArray()` order. -/
theorem c4_overwrite_order {T : Type} (c k : Nat) (hc : 1 ≤ c) (es : List T)
    (hlen : es.length = c + k) (rb0 : RingBuffer T)
    (h0 : RingBuffer.new T (c : Int) = Except.ok rb0) :
    (rb0.add es).toArray = es.drop k := by
  rw [new_nonneg_eq T c] at h0
  injection h0 with h0
  subst h0
  rw [toArray_add es (⟨[], c, some 0⟩ : RingBuffer T) (WF_mkRB c) hc]
  show lastK c ([] ++ es) = es.drop k
  rw [List.nil_append]
  unfold lastK
  rw [hlen, show c + k - c = k from by omega]

/-- Witness for C4: capacity 2, adding `[10, 20, 30]` (`k = 1`) leaves
`[20, 30]`. -/
theorem c4_overwrite_order_witness :
    toArray (add (⟨[], 2, some 0⟩ : RingBuffer Nat) [10, 20, 30]) = [20, 30] := by
  have h := c4_overwrite_order 2 1 (by decide) [10, 20, 30] (by decide)
    (⟨[], 2, some 0⟩ : RingBuffer Nat) rfl
  simpa using h

/-- C9: for every capacity `c ≥ 1` and any adds from a fresh buffer, the
stored length never exceeds `c`, and once it equals `c` every further `add`
keeps it exactly `c`. -/
theorem c9_stored_length_bounded {T : Type} (c : Nat) (hc : 1 ≤ c) (es more : List T)
    (rb0 : RingBuffer T) (h0 : RingBuffer.new T (c : Int) = Except.ok rb0) :
    (rb0.add es).buffer.length ≤ c ∧
    ((rb0.add es).buffer.length = c → ((rb0.add es).add more).buffer.length = c) := by
  rw [new_nonneg_eq T c] at h0
  injection h0 with h0
  subst h0
  have hWF := WF_add (⟨[], c, some 0⟩ : RingBuffer T) es (WF_mkRB c) hc
  have hsz : ((⟨[], c, some 0⟩ : RingBuffer T).add es).size = c :=
    size_add (⟨[], c, some 0⟩ : RingBuffer T) es
  constructor
  · obtain ⟨p, _, _, h2, _, _⟩ := hWF
    omega
  · intro hfull
    have h1 : ((⟨[], c, some 0⟩ : RingBuffer T).add es).buffer.length =
        ((⟨[], c, some 0⟩ : RingBuffer T).add es).size := by
      rw [hsz]
      exact hfull
    have h2 := length_add_full ((⟨[], c, some 0⟩ : RingBuffer T).add es) more hWF
      (by rw [hsz]; exact hc) h1
    rw [h2, hsz]

/-- Witness for C9: capacity 2, `add(7, 8)` then `add(9)`. -/
theorem c9_stored_length_bounded_witness :
    (add (⟨[], 2, some 0⟩ : RingBuffer Nat) [7, 8]).buffer.length ≤ 2 ∧
    ((add (⟨[], 2, some 0⟩ : RingBuffer Nat) [7, 8]).buffer.length = 2 →
      (add (add (⟨[], 2, some 0⟩ : RingBuffer Nat) [7, 8]) [9]).buffer.length = 2) :=
  c9_stored_length_bounded 2 (by decide) [7, 8] [9] (⟨[], 2, some 0⟩ : RingBuffer Nat) rfl

/-- C6: on every reachable state, `resize(n)` with `n > 0` sets the capacity
to `n`, preserves the whole logical content when it fits in `n`, and keeps
exactly the most recent `n` elements when it does not. -/
theorem c6_resize_content {T : Type} (rb : RingBuffer T) (h : Reachable rb) (n : Int)
    (hn : 0 < n) :
    ((rb.resize n).1).size = n.toNat ∧
    (rb.toArray.length ≤ n.toNat → ((rb.resize n).1).toArray = rb.toArray) ∧
    (n.toNat < rb.toArray.length →
      ((rb.resize n).1).toArray = rb.toArray.drop (rb.toArray.length - n.toNat)) := by
  have hInv := reachable_inv rb h
  rw [resize_nonneg rb n (by omega)]
  obtain ⟨hsz, hta⟩ := resizeNN_toArray rb hInv n.toNat (by omega)
  refine ⟨hsz, ?_, ?_⟩
  · intro hle
    rw [show ((rb.resizeNN n.toNat, (none : Option String)).1) = rb.resizeNN n.toNat from rfl,
      hta, lastK_of_le _ _ hle]
  · intro _
    rw [show ((rb.resizeNN n.toNat, (none : Option String)).1) = rb.resizeNN n.toNat from rfl,
      hta]
    rfl

/-- Witness for C6: growing a reachable one-element capacity-2 buffer to
capacity 5 keeps its content. -/
theorem c6_resize_content_witness :
    ((resize (addOne (⟨[], 2, some 0⟩ : RingBuffer Nat) 1) 5).1).size = 5 ∧
    toArray ((resize (addOne (⟨[], 2, some 0⟩ : RingBuffer Nat) 1) 5).1) = [1] := by
  have h := c6_resize_content (addOne (⟨[], 2, some 0⟩ : RingBuffer Nat) 1)
    (Reachable.step_add _ 1 (Reachable.init 2)) 5 (by decide)
  refine ⟨h.1, ?_⟩
  have h2 := h.2.1 (by decide)
  rw [h2]
  decide

/-- C7: the claim says `remove` returns `[]` and leaves the whole state
unchanged whenever the remapped index is outside `[0, storedLength)`.  The
code violates this at remapped index = storedLength: the bounds check is
`index > length`, so the call falls through to the splice-and-reimport path.
On the reachable full buffer `⟨[30,20], 2, some 1⟩` (after `add(10); add(20);
add(30)`), `remove(2)` returns `[]` but rewrites the state to
`⟨[20,30], 2, some 0⟩`: the cursor and the physical layout change. -/
theorem c7_remove_counterexample :
    (remove (⟨[30, 20], 2, some 1⟩ : RingBuffer Nat) 2 1).1 = [] ∧
    (remove (⟨[30, 20], 2, some 1⟩ : RingBuffer Nat) 2 1).2 = ⟨[20, 30], 2, some 0⟩ ∧
    (remove (⟨[30, 20], 2, some 1⟩ : RingBuffer Nat) 2 1).2 ≠ ⟨[30, 20], 2, some 1⟩ ∧
    Reachable (⟨[30, 20], 2, some 1⟩ : RingBuffer Nat) := by
  refine ⟨by decide, by decide, by decide, ?_⟩
  have h : (((⟨[], 2, some 0⟩ : RingBuffer Nat).addOne 10).addOne 20).addOne 30 =
      (⟨[30, 20], 2, some 1⟩ : RingBuffer Nat) := by decide
  rw [← h]
  exact Reachable.step_add _ 30 (Reachable.step_add _ 20 (Reachable.step_add _ 10
    (Reachable.init 2)))

/-- C7 (amended): when the remapped index is strictly negative or strictly
greater than the stored length, `remove` returns `[]` and the state is fully
unchanged; when the remapped index equals the stored length, `remove` still
returns `[]` and preserves the logical content (`toArray`), its length and
the capacity, but may normalize the cursor and physical layout. -/
theorem c7_remove_out_of_range_amended {T : Type} (rb : RingBuffer T) (i c : Int)
    (h : rb.Inv) :
    ((if i < 0 then i + (rb.buffer.length : Int) else i) < 0 ∨
        (rb.buffer.length : Int) < (if i < 0 then i + (rb.buffer.length : Int) else i) →
      rb.remove i c = ([], rb)) ∧
    ((if i < 0 then i + (rb.buffer.length : Int) else i) = (rb.buffer.length : Int) →
      (rb.remove i c).1 = [] ∧ ((rb.remove i c).2).toArray = rb.toArray ∧
      ((rb.remove i c).2).size = rb.size) := by
  constructor
  · intro h1
    rw [remove_eq, if_pos h1]
  · intro hr
    have hnot : ¬ ((if i < 0 then i + (rb.buffer.length : Int) else i) < 0 ∨
        (rb.buffer.length : Int) < (if i < 0 then i + (rb.buffer.length : Int) else i)) := by
      omega
    have hrt : (if i < 0 then i + (rb.buffer.length : Int) else i).toNat =
        rb.buffer.length := by
      rw [hr, Int.toNat_natCast]
    rw [remove_eq, if_neg hnot, hrt]
    have hsp : jsSplice rb.toArray rb.buffer.length c = ([], rb.toArray) := by
      conv_lhs => rw [← length_toArray rb]
      exact jsSplice_at_length rb.toArray c
    rw [hsp]
    refine ⟨rfl, ?_, ?_⟩
    · show (rb.fromArray rb.toArray false).toArray = rb.toArray
      rw [fromArray_false]
      rcases Nat.eq_zero_or_pos rb.size with hs | hs
      · rw [fromArrayData_of_size_zero rb _ hs]
      · have hwf : rb.WF := by
          rcases h with hwf | hnan
          · exact hwf
          · exact absurd hnan.1 (by omega)
        have hlen : rb.toArray.length ≤ rb.size := by
          rw [length_toArray]
          obtain ⟨p, _, _, h2, _, _⟩ := hwf
          exact h2
        exact toArray_fromArrayData rb rb.toArray hs hlen
    · show (rb.fromArray rb.toArray false).size = rb.size
      rw [fromArray_false, size_fromArrayData]

/-- Witness for the amended C7 at the counterexample state. -/
theorem c7_remove_out_of_range_amended_witness :
    remove (⟨[30, 20], 2, some 1⟩ : RingBuffer Nat) 7 1 = ([], ⟨[30, 20], 2, some 1⟩) ∧
    (remove (⟨[30, 20], 2, some 1⟩ : RingBuffer Nat) 2 1).1 = [] ∧
    toArray ((remove (⟨[30, 20], 2, some 1⟩ : RingBuffer Nat) 2 1).2) = [20, 30] ∧
    ((remove (⟨[30, 20], 2, some 1⟩ : RingBuffer Nat) 2 1).2).size = 2 := by
  have hwf : (⟨[30, 20], 2, some 1⟩ : RingBuffer Nat).Inv :=
    Or.inl ⟨1, rfl, by decide, by decide, fun hh => absurd hh (by decide), fun _ => by decide⟩
  have h1 := (c7_remove_out_of_range_amended (⟨[30, 20], 2, some 1⟩ : RingBuffer Nat) 7 1
    hwf).1 (by decide)
  have h2 := (c7_remove_out_of_range_amended (⟨[30, 20], 2, some 1⟩ : RingBuffer Nat) 2 1
    hwf).2 (by decide)
  refine ⟨h1, h2.1, ?_, h2.2.2⟩
  rw [h2.2.1]
  decide

/-- C1: the claim says a remapped index outside `[0, storedLength)` always
yields "absent", and in particular `get(storedLength)` does.  The code's
bounds check is `index > length` (not `>=`), so remapped index =
storedLength falls through: on the reachable full buffer
`⟨[10,20], 2, some 0⟩` (stored length 2), `get(2)` returns `10` (the element
at the cursor slot, the oldest one) instead of "absent". -/
theorem c1_get_counterexample :
    get (⟨[10, 20], 2, some 0⟩ : RingBuffer Nat) 2 = some 10 ∧
    get (⟨[10, 20], 2, some 0⟩ : RingBuffer Nat) 2 ≠ none ∧
    getBufferLength (⟨[10, 20], 2, some 0⟩ : RingBuffer Nat) = 2 ∧
    Reachable (⟨[10, 20], 2, some 0⟩ : RingBuffer Nat) := by
  refine ⟨by decide, by decide, by decide, ?_⟩
  have h : fromArray (⟨[], 2, some 0⟩ : RingBuffer Nat) [10, 20] false =
      ⟨[10, 20], 2, some 0⟩ := by decide
  rw [← h]
  exact Reachable.step_fromArray _ [10, 20] false (Reachable.init 2)

/-- C1 (amended): `get(index)` remaps a negative index by adding the stored
length; a remapped index strictly negative or strictly greater than the
stored length yields "absent"; at remapped index = storedLength the bounds
check passes: the result is "absent" when the buffer is not full or the
capacity is 0, but on a full buffer `get(storedLength)` returns the element
at the physical cursor slot (the oldest element).  `get` itself never
changes the state (see C10). -/
theorem c1_get_bounds_amended {T : Type} (rb : RingBuffer T) (i : Int) (h : rb.Inv) :
    ((if i < 0 then i + (rb.buffer.length : Int) else i) < 0 ∨
        (rb.buffer.length : Int) < (if i < 0 then i + (rb.buffer.length : Int) else i) →
      rb.get i = none) ∧
    ((if i < 0 then i + (rb.buffer.length : Int) else i) = (rb.buffer.length : Int) →
      (rb.buffer.length < rb.size → rb.get i = none) ∧
      (rb.size = 0 → rb.get i = none) ∧
      (rb.buffer.length = rb.size → 0 < rb.size →
        ∃ p, rb.pos = some p ∧ rb.get i = rb.buffer.get? p)) := by
  refine ⟨?_, ?_⟩
  · intro h1
    rw [get_eq, if_pos h1]
  · intro hr
    have hnot : ¬ ((if i < 0 then i + (rb.buffer.length : Int) else i) < 0 ∨
        (rb.buffer.length : Int) < (if i < 0 then i + (rb.buffer.length : Int) else i)) := by
      omega
    refine ⟨?_, ?_, ?_⟩
    · intro hlt
      rw [get_eq, if_neg hnot, if_pos hlt, hr, Int.toNat_natCast]
      exact List.get?_eq_none.mpr le_rfl
    · intro hs0
      rw [get_eq, if_neg hnot, if_neg (by omega)]
      have hz : ((rb.size : Int)) = 0 := by omega
      rw [hz]
      cases hq : rb.pos with
      | none => simp [hq, jnum, jadd, jmod]
      | some p => simp [hq, jnum, jadd, jmod]
    · intro hfull hpos
      have hwf : rb.WF := by
        rcases h with hwf | hnan
        · exact hwf
        · exact absurd hnan.1 (by omega)
      obtain ⟨p, hp, h1, h2, h3, h4⟩ := hwf
      have hps : p < rb.size := h4 hpos
      refine ⟨p, hp, ?_⟩
      rw [get_eq, if_neg hnot, if_neg (by omega), hp, hr]
      have hj0 : jnum (some p) = some ((p : Nat) : Int) := rfl
      rw [hj0]
      have hsz : ¬ ((rb.size : Int) = 0) := by omega
      have hjm : jmod (jadd (some ((p : Nat) : Int)) (some (rb.buffer.length : Int)))
          ((rb.size : Int)) = some (((p + rb.buffer.length) % rb.size : Nat) : Int) := by
        simp only [jadd, jmod, if_neg hsz]
        rw [← Nat.cast_add, Int.ofNat_tmod]
      rw [hjm]
      show (if (((p + rb.buffer.length) % rb.size : Nat) : Int) < 0 then none
        else rb.buffer.get? ((((p + rb.buffer.length) % rb.size : Nat) : Int)).toNat) =
        rb.buffer.get? p
      have hmod : (p + rb.buffer.length) % rb.size = p := by
        rw [hfull, Nat.add_mod_right, Nat.mod_eq_of_lt hps]
      rw [hmod, if_neg (by omega), Int.toNat_natCast]

/-- Witness for the amended C1: on the full buffer `⟨[10,20], 2, some 0⟩`,
`get(5)` is absent and `get(2)` (remapped index = storedLength) returns the
oldest element `10`. -/
theorem c1_get_bounds_amended_witness :
    get (⟨[10, 20], 2, some 0⟩ : RingBuffer Nat) 5 = none ∧
    get (⟨[10, 20], 2, some 0⟩ : RingBuffer Nat) 2 = some 10 := by
  have hInv : (⟨[10, 20], 2, some 0⟩ : RingBuffer Nat).Inv :=
    Or.inl ⟨0, rfl, by decide, by decide, fun hh => absurd hh (by decide), fun _ => by decide⟩
  have h1 := (c1_get_bounds_amended (⟨[10, 20], 2, some 0⟩ : RingBuffer Nat) 5 hInv).1
    (by decide)
  have h2 := (c1_get_bounds_amended (⟨[10, 20], 2, some 0⟩ : RingBuffer Nat) 2 hInv).2
    (by decide)
  obtain ⟨p, hp, hg⟩ := h2.2.2 (by decide) (by decide)
  refine ⟨h1, ?_⟩
  rw [hg]
  have hp0 : p = 0 := by
    injection hp with hp
    exact hp.symm
  subst hp0
  decide
